import Mathlib

/-!
Verification of the concurrency experiment harness in
src/shared_mutable_access.c.

The C program spawns worker threads that (1) pass a spin barrier
(function barrier: an atomic increment of wait_lock followed by a busy
wait until wait_lock equals thread_count) and then (2) increment the
shared counter shared_data, either as a plain non-atomic
load / add / store sequence (USE_ATOMICS = 0) or as a single atomic
increment (USE_ATOMICS = 1).

We embed one trial as a small-step interleaving semantics: each worker
thread is a program counter plus the local register holding the value it
loaded, and a schedule (a list of thread indices) decides which thread
executes its next instruction.  The program's own disassembly comment
shows the unsynchronized increment compiles to exactly the three steps
load / add / store, which is what the two-step work-then-store encoding
below captures (the add happens on the thread-local register).
-/

/-- Program counter of a worker thread.  A worker starts before the
atomic increment of wait_lock (arrive), then busy-waits (spin), then
performs its increment: work is the atomic increment when USE_ATOMICS is
set, otherwise the load of shared_data into a register, store writes the
register plus one back, and done is the thread exit. -/
inductive Pc where
  | arrive
  | spin
  | work
  | store
  | done
deriving DecidableEq

/-- Shared and per-thread state during one trial with n worker threads:
wait_lock and shared_data are the two process-wide variables of the C
program; regs i is thread i's local copy of shared_data (the EAX
register in the program's own disassembly comment); pc i is thread i's
program counter. -/
structure TrialState (n : ℕ) where
  wait_lock : ℕ
  shared_data : ℕ
  regs : Fin n → ℕ
  pc : Fin n → Pc

/-- One instruction of thread i.  arrive executes wait_lock += 1 of
barrier(); spin re-checks the loop condition wait_lock != thread_count
and falls through only when it fails; work is shared_data += 1 when
useAtomics is true and otherwise the load of shared_data; store writes
the incremented register back to shared_data. -/
def step (useAtomics : Bool) {n : ℕ} (s : TrialState n) (i : Fin n) : TrialState n :=
  match s.pc i with
  | Pc.arrive =>
      { s with wait_lock := s.wait_lock + 1, pc := Function.update s.pc i Pc.spin }
  | Pc.spin =>
      if s.wait_lock = n then { s with pc := Function.update s.pc i Pc.work } else s
  | Pc.work =>
      if useAtomics then
        { s with shared_data := s.shared_data + 1, pc := Function.update s.pc i Pc.done }
      else
        { s with regs := Function.update s.regs i s.shared_data,
                 pc := Function.update s.pc i Pc.store }
  | Pc.store =>
      { s with shared_data := s.regs i + 1, pc := Function.update s.pc i Pc.done }
  | Pc.done => s

/-- State at the start of a trial: the trial runner has reset wait_lock
and shared_data to 0 and every thread is about to enter barrier(). -/
def initState (n : ℕ) : TrialState n :=
  { wait_lock := 0, shared_data := 0, regs := fun _ => 0, pc := fun _ => Pc.arrive }

/-- Run one trial with n workers under a given interleaving:  the
schedule lists, in order, which thread executes its next instruction. -/
def runTrial (useAtomics : Bool) (n : ℕ) (sched : List (Fin n)) : TrialState n :=
  sched.foldl (step useAtomics) (initState n)

/-- Weight 1 for every thread that has executed its wait_lock increment:
the sum of this weight over all threads is the value of wait_lock. -/
def arrivedW : Pc → ℕ
  | Pc.arrive => 0
  | _ => 1

/-- Weight 1 for every thread that has finished its increment. -/
def doneW : Pc → ℕ
  | Pc.done => 1
  | _ => 0

/-- A thread has proceeded past the barrier once its program counter has
left the arrive / spin phase. -/
def passedBarrier : Pc → Prop
  | Pc.arrive => False
  | Pc.spin => False
  | _ => True

theorem sum_comp_update {n : ℕ} (g : Pc → ℕ) (f : Fin n → Pc) (i : Fin n) (v : Pc) :
    (∑ j, g (Function.update f i v j)) + g (f i) = (∑ j, g (f j)) + g v := by
  have h2 : (∑ j, g (Function.update f i v j)) =
      ∑ j, Function.update (fun j => g (f j)) i (g v) j :=
    Finset.sum_congr rfl (fun j _ => by
      by_cases h : j = i
      · subst h; simp
      · simp [Function.update_noteq h])
  rw [h2, Finset.sum_update_of_mem (Finset.mem_univ i),
    Finset.sum_eq_sum_diff_singleton_add (Finset.mem_univ i) (fun j => g (f j))]
  omega

theorem sum_weight_le {n : ℕ} (g : Pc → ℕ) (hg : ∀ p, g p ≤ 1) (f : Fin n → Pc) :
    (∑ j, g (f j)) ≤ n := by
  calc (∑ j, g (f j)) ≤ ∑ _j : Fin n, 1 := Finset.sum_le_sum (fun j _ => hg (f j))
    _ = n := by simp

/-- Barrier invariant: wait_lock counts exactly the threads that have
executed their arrival increment, and any thread that has proceeded past
the barrier witnessed wait_lock = n. -/
def BarInv {n : ℕ} (s : TrialState n) : Prop :=
  s.wait_lock = (∑ j, arrivedW (s.pc j)) ∧
  ∀ i, passedBarrier (s.pc i) → s.wait_lock = n

theorem arrivedW_le_one : ∀ p, arrivedW p ≤ 1 := by
  intro p; cases p <;> simp [arrivedW]

theorem step_arrive (uA : Bool) {n : ℕ} (s : TrialState n) (i : Fin n)
    (h : s.pc i = Pc.arrive) :
    step uA s i =
      { s with wait_lock := s.wait_lock + 1, pc := Function.update s.pc i Pc.spin } := by
  unfold step; rw [h]

theorem step_spin (uA : Bool) {n : ℕ} (s : TrialState n) (i : Fin n)
    (h : s.pc i = Pc.spin) :
    step uA s i =
      if s.wait_lock = n then { s with pc := Function.update s.pc i Pc.work } else s := by
  unfold step; rw [h]

theorem step_work_atomic {n : ℕ} (s : TrialState n) (i : Fin n)
    (h : s.pc i = Pc.work) :
    step true s i =
      { s with shared_data := s.shared_data + 1, pc := Function.update s.pc i Pc.done } := by
  unfold step; rw [h]; rfl

theorem step_work_load {n : ℕ} (s : TrialState n) (i : Fin n)
    (h : s.pc i = Pc.work) :
    step false s i =
      { s with regs := Function.update s.regs i s.shared_data,
               pc := Function.update s.pc i Pc.store } := by
  unfold step; rw [h]; rfl

theorem step_store (uA : Bool) {n : ℕ} (s : TrialState n) (i : Fin n)
    (h : s.pc i = Pc.store) :
    step uA s i =
      { s with shared_data := s.regs i + 1, pc := Function.update s.pc i Pc.done } := by
  unfold step; rw [h]

theorem step_done (uA : Bool) {n : ℕ} (s : TrialState n) (i : Fin n)
    (h : s.pc i = Pc.done) : step uA s i = s := by
  unfold step; rw [h]

theorem BarInv_init (n : ℕ) : BarInv (initState n) := by
  constructor
  · simp [initState, arrivedW]
  · intro i h
    simp [initState, passedBarrier] at h

theorem BarInv_step (uA : Bool) {n : ℕ} (s : TrialState n) (i : Fin n)
    (h : BarInv s) : BarInv (step uA s i) := by
  obtain ⟨h1, h2⟩ := h
  cases hpc : s.pc i with
  | arrive =>
    have hsum := sum_comp_update arrivedW s.pc i Pc.spin
    rw [hpc, show arrivedW Pc.arrive = 0 from rfl,
      show arrivedW Pc.spin = 1 from rfl] at hsum
    have hle := sum_weight_le arrivedW arrivedW_le_one (Function.update s.pc i Pc.spin)
    rw [step_arrive uA s i hpc]
    refine ⟨?_, ?_⟩
    · show s.wait_lock + 1 = ∑ j, arrivedW (Function.update s.pc i Pc.spin j)
      omega
    · intro j hj
      have hj2 : passedBarrier (Function.update s.pc i Pc.spin j) := hj
      show s.wait_lock + 1 = n
      by_cases hji : j = i
      · subst hji
        rw [Function.update_same] at hj2
        simp [passedBarrier] at hj2
      · rw [Function.update_noteq hji] at hj2
        have := h2 j hj2
        omega
  | spin =>
    by_cases hwl : s.wait_lock = n
    · have hsum := sum_comp_update arrivedW s.pc i Pc.work
      rw [hpc, show arrivedW Pc.spin = 1 from rfl,
        show arrivedW Pc.work = 1 from rfl] at hsum
      rw [step_spin uA s i hpc, if_pos hwl]
      refine ⟨?_, ?_⟩
      · show s.wait_lock = ∑ j, arrivedW (Function.update s.pc i Pc.work j)
        omega
      · intro j _
        exact hwl
    · rw [step_spin uA s i hpc, if_neg hwl]
      exact ⟨h1, h2⟩
  | work =>
    have hpass : s.wait_lock = n := h2 i (by rw [hpc]; trivial)
    cases uA with
    | true =>
      have hsum := sum_comp_update arrivedW s.pc i Pc.done
      rw [hpc, show arrivedW Pc.work = 1 from rfl,
        show arrivedW Pc.done = 1 from rfl] at hsum
      rw [step_work_atomic s i hpc]
      refine ⟨?_, ?_⟩
      · show s.wait_lock = ∑ j, arrivedW (Function.update s.pc i Pc.done j)
        omega
      · intro j _
        exact hpass
    | false =>
      have hsum := sum_comp_update arrivedW s.pc i Pc.store
      rw [hpc, show arrivedW Pc.work = 1 from rfl,
        show arrivedW Pc.store = 1 from rfl] at hsum
      rw [step_work_load s i hpc]
      refine ⟨?_, ?_⟩
      · show s.wait_lock = ∑ j, arrivedW (Function.update s.pc i Pc.store j)
        omega
      · intro j _
        exact hpass
  | store =>
    have hpass : s.wait_lock = n := h2 i (by rw [hpc]; trivial)
    have hsum := sum_comp_update arrivedW s.pc i Pc.done
    rw [hpc, show arrivedW Pc.store = 1 from rfl,
      show arrivedW Pc.done = 1 from rfl] at hsum
    rw [step_store uA s i hpc]
    refine ⟨?_, ?_⟩
    · show s.wait_lock = ∑ j, arrivedW (Function.update s.pc i Pc.done j)
      omega
    · intro j _
      exact hpass
  | done =>
    rw [step_done uA s i hpc]
    exact ⟨h1, h2⟩

theorem BarInv_run (uA : Bool) {n : ℕ} :
    ∀ (sched : List (Fin n)) (s : TrialState n), BarInv s →
      BarInv (sched.foldl (step uA) s) := by
  intro sched
  induction sched with
  | nil => intro s hs; exact hs
  | cons i rest ih =>
    intro s hs
    exact ih (step uA s i) (BarInv_step uA s i hs)

theorem doneW_le_one : ∀ p, doneW p ≤ 1 := by
  intro p; cases p <;> simp [doneW]

/-- Counter invariant for the synchronized variant: shared_data counts
exactly the threads that have completed their atomic increment, and no
thread is ever in the two-step store phase. -/
def SyncInv {n : ℕ} (s : TrialState n) : Prop :=
  s.shared_data = (∑ j, doneW (s.pc j)) ∧
  ∀ i, s.pc i ≠ Pc.store

theorem SyncInv_init (n : ℕ) : SyncInv (initState n) := by
  constructor
  · simp [initState, doneW]
  · intro i
    simp [initState]

theorem SyncInv_step {n : ℕ} (s : TrialState n) (i : Fin n)
    (h : SyncInv s) : SyncInv (step true s i) := by
  obtain ⟨h1, h2⟩ := h
  cases hpc : s.pc i with
  | arrive =>
    have hsum := sum_comp_update doneW s.pc i Pc.spin
    rw [hpc, show doneW Pc.arrive = 0 from rfl,
      show doneW Pc.spin = 0 from rfl] at hsum
    rw [step_arrive true s i hpc]
    refine ⟨?_, ?_⟩
    · show s.shared_data = ∑ j, doneW (Function.update s.pc i Pc.spin j)
      omega
    · intro j
      show Function.update s.pc i Pc.spin j ≠ Pc.store
      by_cases hji : j = i
      · subst hji; rw [Function.update_same]; simp
      · rw [Function.update_noteq hji]; exact h2 j
  | spin =>
    by_cases hwl : s.wait_lock = n
    · have hsum := sum_comp_update doneW s.pc i Pc.work
      rw [hpc, show doneW Pc.spin = 0 from rfl,
        show doneW Pc.work = 0 from rfl] at hsum
      rw [step_spin true s i hpc, if_pos hwl]
      refine ⟨?_, ?_⟩
      · show s.shared_data = ∑ j, doneW (Function.update s.pc i Pc.work j)
        omega
      · intro j
        show Function.update s.pc i Pc.work j ≠ Pc.store
        by_cases hji : j = i
        · subst hji; rw [Function.update_same]; simp
        · rw [Function.update_noteq hji]; exact h2 j
    · rw [step_spin true s i hpc, if_neg hwl]
      exact ⟨h1, h2⟩
  | work =>
    have hsum := sum_comp_update doneW s.pc i Pc.done
    rw [hpc, show doneW Pc.work = 0 from rfl,
      show doneW Pc.done = 1 from rfl] at hsum
    rw [step_work_atomic s i hpc]
    refine ⟨?_, ?_⟩
    · show s.shared_data + 1 = ∑ j, doneW (Function.update s.pc i Pc.done j)
      omega
    · intro j
      show Function.update s.pc i Pc.done j ≠ Pc.store
      by_cases hji : j = i
      · subst hji; rw [Function.update_same]; simp
      · rw [Function.update_noteq hji]; exact h2 j
  | store =>
    exact absurd hpc (h2 i)
  | done =>
    rw [step_done true s i hpc]
    exact ⟨h1, h2⟩

theorem SyncInv_run {n : ℕ} :
    ∀ (sched : List (Fin n)) (s : TrialState n), SyncInv s →
      SyncInv (sched.foldl (step true) s) := by
  intro sched
  induction sched with
  | nil => intro s hs; exact hs
  | cons i rest ih =>
    intro s hs
    exact ih (step true s i) (SyncInv_step s i hs)

/-- Counter invariant for the unsynchronized variant: shared_data never
exceeds the number of threads that have completed their store, and the
register of any thread about to store holds a value bounded the same
way.  Increments can be lost (a stale register overwrites) but the value
can never exceed the number of completed increments. -/
def UnsyncInv {n : ℕ} (s : TrialState n) : Prop :=
  s.shared_data ≤ (∑ j, doneW (s.pc j)) ∧
  ∀ i, s.pc i = Pc.store → s.regs i ≤ (∑ j, doneW (s.pc j))

theorem UnsyncInv_init (n : ℕ) : UnsyncInv (initState n) := by
  constructor
  · simp [initState]
  · intro i h
    simp [initState] at h

theorem UnsyncInv_step {n : ℕ} (s : TrialState n) (i : Fin n)
    (h : UnsyncInv s) : UnsyncInv (step false s i) := by
  obtain ⟨h1, h2⟩ := h
  cases hpc : s.pc i with
  | arrive =>
    have hsum := sum_comp_update doneW s.pc i Pc.spin
    rw [hpc, show doneW Pc.arrive = 0 from rfl,
      show doneW Pc.spin = 0 from rfl] at hsum
    rw [step_arrive false s i hpc]
    refine ⟨?_, ?_⟩
    · show s.shared_data ≤ ∑ j, doneW (Function.update s.pc i Pc.spin j)
      omega
    · intro j hj
      have hj2 : Function.update s.pc i Pc.spin j = Pc.store := hj
      show s.regs j ≤ ∑ k, doneW (Function.update s.pc i Pc.spin k)
      by_cases hji : j = i
      · subst hji; rw [Function.update_same] at hj2; simp at hj2
      · rw [Function.update_noteq hji] at hj2
        have := h2 j hj2
        omega
  | spin =>
    by_cases hwl : s.wait_lock = n
    · have hsum := sum_comp_update doneW s.pc i Pc.work
      rw [hpc, show doneW Pc.spin = 0 from rfl,
        show doneW Pc.work = 0 from rfl] at hsum
      rw [step_spin false s i hpc, if_pos hwl]
      refine ⟨?_, ?_⟩
      · show s.shared_data ≤ ∑ j, doneW (Function.update s.pc i Pc.work j)
        omega
      · intro j hj
        have hj2 : Function.update s.pc i Pc.work j = Pc.store := hj
        show s.regs j ≤ ∑ k, doneW (Function.update s.pc i Pc.work k)
        by_cases hji : j = i
        · subst hji; rw [Function.update_same] at hj2; simp at hj2
        · rw [Function.update_noteq hji] at hj2
          have := h2 j hj2
          omega
    · rw [step_spin false s i hpc, if_neg hwl]
      exact ⟨h1, h2⟩
  | work =>
    have hsum := sum_comp_update doneW s.pc i Pc.store
    rw [hpc, show doneW Pc.work = 0 from rfl,
      show doneW Pc.store = 0 from rfl] at hsum
    rw [step_work_load s i hpc]
    refine ⟨?_, ?_⟩
    · show s.shared_data ≤ ∑ j, doneW (Function.update s.pc i Pc.store j)
      omega
    · intro j hj
      have hj2 : Function.update s.pc i Pc.store j = Pc.store := hj
      show Function.update s.regs i s.shared_data j ≤
        ∑ k, doneW (Function.update s.pc i Pc.store k)
      by_cases hji : j = i
      · subst hji
        rw [Function.update_same]
        omega
      · rw [Function.update_noteq hji] at hj2
        rw [Function.update_noteq hji]
        have := h2 j hj2
        omega
  | store =>
    have hreg := h2 i hpc
    have hsum := sum_comp_update doneW s.pc i Pc.done
    rw [hpc, show doneW Pc.store = 0 from rfl,
      show doneW Pc.done = 1 from rfl] at hsum
    rw [step_store false s i hpc]
    refine ⟨?_, ?_⟩
    · show s.regs i + 1 ≤ ∑ j, doneW (Function.update s.pc i Pc.done j)
      omega
    · intro j hj
      have hj2 : Function.update s.pc i Pc.done j = Pc.store := hj
      show s.regs j ≤ ∑ k, doneW (Function.update s.pc i Pc.done k)
      by_cases hji : j = i
      · subst hji; rw [Function.update_same] at hj2; simp at hj2
      · rw [Function.update_noteq hji] at hj2
        have := h2 j hj2
        omega
  | done =>
    rw [step_done false s i hpc]
    exact ⟨h1, h2⟩

theorem UnsyncInv_run {n : ℕ} :
    ∀ (sched : List (Fin n)) (s : TrialState n), UnsyncInv s →
      UnsyncInv (sched.foldl (step false) s) := by
  intro sched
  induction sched with
  | nil => intro s hs; exact hs
  | cons i rest ih =>
    intro s hs
    exact ih (step false s i) (UnsyncInv_step s i hs)

theorem sum_doneW_of_all_done {n : ℕ} (f : Fin n → Pc)
    (h : ∀ j, f j = Pc.done) : (∑ j, doneW (f j)) = n := by
  calc (∑ j, doneW (f j)) = ∑ _j : Fin n, 1 :=
        Finset.sum_congr rfl (fun j _ => by rw [h j]; rfl)
    _ = n := by simp

/-- C1: with the synchronized SharedCounter variant (USE_ATOMICS = 1),
for every thread_count n ≥ 1 and for every interleaving under which all
workers have run to completion (the join discipline of the trial
runner), the final value of shared_data equals n: no increment is ever
lost, deterministically for every trial. -/
theorem sync_counter_deterministic (n : ℕ) (_hn : 1 ≤ n) (sched : List (Fin n))
    (hdone : ∀ i, (runTrial true n sched).pc i = Pc.done) :
    (runTrial true n sched).shared_data = n := by
  have hinv := SyncInv_run sched (initState n) (SyncInv_init n)
  have h1 : (runTrial true n sched).shared_data =
      ∑ j, doneW ((runTrial true n sched).pc j) := hinv.1
  rw [sum_doneW_of_all_done ((runTrial true n sched).pc) hdone] at h1
  exact h1

theorem sync_counter_deterministic_witness :
    (runTrial true 1 [0, 0, 0]).shared_data = 1 :=
  sync_counter_deterministic 1 (by decide) [0, 0, 0] (by decide)

/-- Round-robin schedule for four threads: each thread arrives, then
each passes the spin check, then each loads, then each stores. -/
def fourThreadSchedule : List (Fin 4) :=
  [0, 1, 2, 3, 0, 1, 2, 3, 0, 1, 2, 3, 0, 1, 2, 3]

/-- C2: no thread proceeds past the barrier (leaves the arrive / spin
phase) in any reachable state of any interleaving unless the arrival
counter wait_lock equals the participant count n; once every participant
has executed its arrival increment, any spinning thread that is
scheduled passes the barrier (so no thread spins forever under a fair
schedule); and with exactly 4 participants and target 4 there is a
complete interleaving in which all 4 threads return from the barrier
and finish. -/
theorem barrier_blocks_until_full_arrival :
    (∀ (uA : Bool) (n : ℕ) (sched : List (Fin n)) (i : Fin n),
        passedBarrier ((runTrial uA n sched).pc i) →
        (runTrial uA n sched).wait_lock = n) ∧
    (∀ (uA : Bool) (n : ℕ) (sched : List (Fin n)) (i : Fin n),
        (∀ j, (runTrial uA n sched).pc j ≠ Pc.arrive) →
        (runTrial uA n sched).pc i = Pc.spin →
        (step uA (runTrial uA n sched) i).pc i = Pc.work) ∧
    (∀ i : Fin 4, (runTrial false 4 fourThreadSchedule).pc i = Pc.done) := by
  refine ⟨?_, ?_, ?_⟩
  · intro uA n sched i hp
    have hinv := BarInv_run uA sched (initState n) (BarInv_init n)
    exact hinv.2 i hp
  · intro uA n sched i hall hspin
    have hinv := BarInv_run uA sched (initState n) (BarInv_init n)
    have h1 : (runTrial uA n sched).wait_lock =
        ∑ j, arrivedW ((runTrial uA n sched).pc j) := hinv.1
    have hn : (∑ j, arrivedW ((runTrial uA n sched).pc j)) = n := by
      calc (∑ j, arrivedW ((runTrial uA n sched).pc j)) = ∑ _j : Fin n, 1 :=
            Finset.sum_congr rfl (fun j _ => by
              cases hj : (runTrial uA n sched).pc j with
              | arrive => exact absurd hj (hall j)
              | spin => rfl
              | work => rfl
              | store => rfl
              | done => rfl)
        _ = n := by simp
    have hwl : (runTrial uA n sched).wait_lock = n := by rw [h1, hn]
    rw [step_spin uA (runTrial uA n sched) i hspin, if_pos hwl]
    show Function.update (runTrial uA n sched).pc i Pc.work i = Pc.work
    simp
  · decide

theorem barrier_blocks_until_full_arrival_witness :
    (runTrial false 4 fourThreadSchedule).wait_lock = 4 ∧
    (step false (runTrial false 4 [0, 1, 2, 3]) 0).pc 0 = Pc.work :=
  ⟨barrier_blocks_until_full_arrival.1 false 4 fourThreadSchedule 0 (by
     rw [show (runTrial false 4 fourThreadSchedule).pc 0 = Pc.done from by decide]
     trivial),
   barrier_blocks_until_full_arrival.2.1 false 4 [0, 1, 2, 3] 0
     (by decide) (by decide)⟩

/-- C3: with the unsynchronized SharedCounter variant and thread_count
n ≥ 2, the final shared_data of every interleaving is at most n:
increments can be lost but never duplicated or corrupted out of
range. -/
theorem unsync_counter_bounded (n : ℕ) (_hn : 2 ≤ n) (sched : List (Fin n)) :
    (runTrial false n sched).shared_data ≤ n := by
  have hinv := UnsyncInv_run sched (initState n) (UnsyncInv_init n)
  have hle := sum_weight_le doneW doneW_le_one ((runTrial false n sched).pc)
  have h1 : (runTrial false n sched).shared_data ≤
      ∑ j, doneW ((runTrial false n sched).pc j) := hinv.1
  omega

theorem unsync_counter_bounded_witness :
    (runTrial false 2 [0, 1, 0, 1, 0, 1, 0, 1]).shared_data ≤ 2 :=
  unsync_counter_bounded 2 (by decide) [0, 1, 0, 1, 0, 1, 0, 1]

/-!
Statistics aggregator: model of print_stats together with the success
counting of complex_mode.  print_stats scans the results array once to
accumulate the sum and the min / max (min starting from the sentinel
max_threads + 1 and max starting from 0), divides the sum by the batch
size for the average, accumulates the squared deviations from the
average, divides by the batch size for the variance, and takes its
square root for the standard deviation.  complex_mode counts successes
by comparing each trial outcome with thread_count and prints failures as
the batch size minus the successes.  The C float arithmetic is embedded
as exact rational arithmetic, and the square root as the real square
root. -/

/-- Accumulation of sum in the first loop of print_stats. -/
def statSum (batch : List ℤ) : ℚ :=
  batch.foldl (fun (s : ℚ) (x : ℤ) => s + (x : ℚ)) 0

/-- Accumulation of min in the first loop of print_stats, starting from
the sentinel max_threads + 1. -/
def statMin (maxThreads : ℤ) (batch : List ℤ) : ℤ :=
  batch.foldl (fun m x => if x < m then x else m) (maxThreads + 1)

/-- Accumulation of max in the first loop of print_stats, starting
from 0. -/
def statMax (batch : List ℤ) : ℤ :=
  batch.foldl (fun m x => if m < x then x else m) 0

/-- Accumulation of the squared deviations from the average in the
second loop of print_stats. -/
def statSqDev (avg : ℚ) (batch : List ℤ) : ℚ :=
  batch.foldl (fun (s : ℚ) (x : ℤ) => s + ((x : ℚ) - avg) ^ 2) 0

/-- One row of the sweep output (a StatsSummary): everything print_stats
prints for one thread count, except the standard deviation, which is the
real square root of the variance and is stated separately so that the
record stays computable. -/
structure StatsSummary where
  thread_count : ℕ
  trial_count : ℕ
  failure_count : ℕ
  min : ℤ
  max : ℤ
  mean : ℚ
  variance : ℚ
deriving DecidableEq

/-- Summary of one batch: the failure count is the batch size minus the
number of outcomes equal to the expected value (the success count kept
by complex_mode), and the remaining fields follow print_stats. -/
def summarize (maxThreads : ℤ) (tc : ℕ) (batch : List ℤ) (expected : ℤ) : StatsSummary :=
  { thread_count := tc,
    trial_count := batch.length,
    failure_count := batch.length - batch.countP (fun x => decide (x = expected)),
    min := statMin maxThreads batch,
    max := statMax batch,
    mean := statSum batch / batch.length,
    variance := statSqDev (statSum batch / batch.length) batch / batch.length }

/-- C4: summarizing the batch [3,3,3,2,3] with expected value 3 and
thread count 3 (with the program's configured max_threads = 10) gives
failure_count 1, min 2, max 3, mean 2.8, variance 0.16, and standard
deviation 0.4. -/
theorem summarize_concrete_batch :
    summarize 10 3 [3, 3, 3, 2, 3] 3 =
      { thread_count := 3, trial_count := 5, failure_count := 1, min := 2, max := 3,
        mean := 2.8, variance := 0.16 } ∧
    Real.sqrt (((summarize 10 3 [3, 3, 3, 2, 3] 3).variance : ℚ) : ℝ) = 0.4 := by
  have hv : ((summarize 10 3 [3, 3, 3, 2, 3] 3).variance : ℚ) = 0.16 := by
    norm_num [summarize, statSqDev, statSum]
  constructor
  · simp only [summarize, StatsSummary.mk.injEq]
    refine ⟨?_, ?_, ?_, ?_, ?_, ?_, ?_⟩
    · trivial
    · decide
    · decide
    · decide
    · decide
    · norm_num [statSum]
    · have := hv
      simp only [summarize] at this
      exact this
  · rw [hv, show ((0.16 : ℚ) : ℝ) = (0.4 : ℝ) ^ 2 by norm_num,
      Real.sqrt_sq (by norm_num)]

theorem foldl_add_map (f : ℤ → ℚ) :
    ∀ (l : List ℤ) (init : ℚ),
      l.foldl (fun s x => s + f x) init = init + (l.map f).sum := by
  intro l
  induction l with
  | nil => intro init; simp
  | cons x l ih =>
    intro init
    rw [List.foldl_cons, ih, List.map_cons, List.sum_cons]
    ring

theorem statSum_eq (batch : List ℤ) :
    statSum batch = (batch.map (fun x : ℤ => (x : ℚ))).sum := by
  rw [statSum, foldl_add_map, zero_add]

theorem statSqDev_eq (avg : ℚ) (batch : List ℤ) :
    statSqDev avg batch = (batch.map (fun x : ℤ => ((x : ℚ) - avg) ^ 2)).sum := by
  rw [statSqDev, foldl_add_map (fun x => ((x : ℚ) - avg) ^ 2), zero_add]

theorem sum_map_cast_replicate (n : ℕ) (c : ℤ) :
    ((List.replicate n c).map (fun x : ℤ => (x : ℚ))).sum = n * c := by
  induction n with
  | zero => simp
  | succ m ih =>
    rw [List.replicate_succ, List.map_cons, List.sum_cons, ih]
    push_cast
    ring

theorem sum_sqdev_replicate (n : ℕ) (c : ℤ) :
    ((List.replicate n c).map (fun x : ℤ => ((x : ℚ) - c) ^ 2)).sum = 0 := by
  induction n with
  | zero => simp
  | succ m ih =>
    rw [List.replicate_succ, List.map_cons, List.sum_cons, ih]
    simp

/-- Mean written the way the spec describes it: the arithmetic mean of
the batch. -/
def specMean (batch : List ℤ) : ℚ :=
  (batch.map (fun x : ℤ => (x : ℚ))).sum / batch.length

/-- Variance written the way the spec describes it: the mean of the
squared deviations from the arithmetic mean, with divisor equal to the
batch size (population variance, not size minus one). -/
def specPopulationVariance (batch : List ℤ) : ℚ :=
  (batch.map (fun x : ℤ => ((x : ℚ) - specMean batch) ^ 2)).sum / batch.length

/-- C5: for every non-empty batch the aggregator's mean is the
arithmetic mean and its variance is the population variance (divisor =
batch size); consequently a batch of n ≥ 1 all-equal values (including a
single-element batch) has variance 0 and standard deviation 0. -/
theorem variance_is_population_variance :
    (∀ (maxThreads : ℤ) (tc : ℕ) (batch : List ℤ) (e : ℤ), batch ≠ [] →
        (summarize maxThreads tc batch e).mean = specMean batch ∧
        (summarize maxThreads tc batch e).variance = specPopulationVariance batch) ∧
    (∀ (maxThreads : ℤ) (tc n : ℕ) (c e : ℤ), 1 ≤ n →
        (summarize maxThreads tc (List.replicate n c) e).variance = 0 ∧
        Real.sqrt (((summarize maxThreads tc (List.replicate n c) e).variance : ℚ) : ℝ)
          = 0) := by
  constructor
  · intro mT tc b e _hb
    constructor
    · show statSum b / (b.length : ℚ) = specMean b
      rw [statSum_eq, specMean]
    · show statSqDev (statSum b / (b.length : ℚ)) b / (b.length : ℚ) =
        specPopulationVariance b
      rw [statSqDev_eq, statSum_eq, specPopulationVariance, specMean]
  · intro mT tc n c e hn
    have hne : ((n : ℚ)) ≠ 0 := by
      have : 0 < n := hn
      exact_mod_cast Nat.pos_iff_ne_zero.mp this
    have hmean : statSum (List.replicate n c) /
        (((List.replicate n c).length : ℕ) : ℚ) = (c : ℚ) := by
      rw [statSum_eq, sum_map_cast_replicate, List.length_replicate,
        mul_comm, mul_div_assoc, div_self hne, mul_one]
    have hv : (summarize mT tc (List.replicate n c) e).variance = 0 := by
      show statSqDev (statSum (List.replicate n c) /
        (((List.replicate n c).length : ℕ) : ℚ)) (List.replicate n c) /
        (((List.replicate n c).length : ℕ) : ℚ) = 0
      rw [hmean, statSqDev_eq, sum_sqdev_replicate, zero_div]
    refine ⟨hv, ?_⟩
    rw [hv]
    simp

theorem variance_is_population_variance_witness :
    ((summarize 10 2 [1, 2] 0).variance = specPopulationVariance [1, 2]) ∧
    ((summarize 10 2 (List.replicate 3 (5 : ℤ)) 0).variance = 0) :=
  ⟨(variance_is_population_variance.1 10 2 [1, 2] 0 (by decide)).2,
   (variance_is_population_variance.2 10 2 3 5 0 (by decide)).1⟩

theorem countP_eq_add_countP_ne (e : ℤ) :
    ∀ (l : List ℤ), l.countP (fun x => decide (x = e)) +
      l.countP (fun x => decide (x ≠ e)) = l.length := by
  intro l
  induction l with
  | nil => rfl
  | cons x l ih =>
    rw [List.countP_cons, List.countP_cons, List.length_cons]
    simp only [decide_eq_true_eq]
    by_cases hx : x = e
    · rw [if_pos hx, if_neg (fun h => h hx)]
      omega
    · rw [if_neg hx, if_pos hx]
      omega

/-- C6: for every batch and expected value, the reported failure count
(batch size minus the success count kept by complex_mode) equals the
number of outcomes in the batch that differ from the expected value. -/
theorem failure_count_counts_mismatches (maxThreads : ℤ) (tc : ℕ)
    (batch : List ℤ) (e : ℤ) :
    (summarize maxThreads tc batch e).failure_count =
      batch.countP (fun x => decide (x ≠ e)) := by
  show batch.length - batch.countP (fun x => decide (x = e)) = _
  have h := countP_eq_add_countP_ne e batch
  omega

/-- Rows produced by the sweep loop of complex_mode: for thread_count t
running from 1 to max_threads M inclusive, run total_experiments = K
trials and summarize the batch against expected value t.  The trial
outcomes themselves depend on scheduling, so they are abstracted by an
oracle giving the outcome of experiment number e at thread count t. -/
def complexRows (M K : ℕ) (oracle : ℕ → ℕ → ℤ) : List StatsSummary :=
  (List.range M).map (fun j =>
    summarize (M : ℤ) (j + 1) ((List.range K).map (oracle (j + 1))) ((j + 1 : ℕ) : ℤ))

/-- C7: sweep mode with max_thread_count M and trials_per_point K emits
exactly M StatsSummary rows, the row at index j carrying thread_count
j + 1 (hence strictly ascending 1..M) and trial_count K, whatever the
trial outcomes; in particular M = 5, K = 50 gives exactly 5 rows
ascending 1..5, each with trial_count = 50. -/
theorem sweep_rows_shape :
    (∀ (M K : ℕ) (oracle : ℕ → ℕ → ℤ),
        (complexRows M K oracle).length = M ∧
        (∀ (j : ℕ) (h : j < (complexRows M K oracle).length),
            ((complexRows M K oracle).get ⟨j, h⟩).thread_count = j + 1) ∧
        (∀ r ∈ complexRows M K oracle, r.trial_count = K)) ∧
    (∀ (oracle : ℕ → ℕ → ℤ),
        (complexRows 5 50 oracle).length = 5 ∧
        (∀ (j : ℕ) (h : j < (complexRows 5 50 oracle).length),
            ((complexRows 5 50 oracle).get ⟨j, h⟩).thread_count = j + 1) ∧
        (∀ r ∈ complexRows 5 50 oracle, r.trial_count = 50)) := by
  have hgen : ∀ (M K : ℕ) (oracle : ℕ → ℕ → ℤ),
      (complexRows M K oracle).length = M ∧
      (∀ (j : ℕ) (h : j < (complexRows M K oracle).length),
          ((complexRows M K oracle).get ⟨j, h⟩).thread_count = j + 1) ∧
      (∀ r ∈ complexRows M K oracle, r.trial_count = K) := by
    intro M K oracle
    refine ⟨?_, ?_, ?_⟩
    · simp [complexRows]
    · intro j h
      simp [complexRows, List.get_eq_getElem, List.getElem_map, List.getElem_range]
      rfl
    · intro r hr
      rcases List.mem_map.mp hr with ⟨j, _hj, rfl⟩
      show ((List.range K).map (oracle (j + 1))).length = K
      simp
  exact ⟨hgen, fun oracle => hgen 5 50 oracle⟩

theorem sweep_rows_shape_witness :
    (complexRows 1 1 (fun _ _ => 0)).length = 1 ∧
    ((complexRows 1 1 (fun _ _ => 0)).get ⟨0, by decide⟩).thread_count = 0 + 1 ∧
    ((complexRows 1 1 (fun _ _ => 0)).get ⟨0, by decide⟩).trial_count = 1 :=
  ⟨(sweep_rows_shape.1 1 1 (fun _ _ => 0)).1,
   (sweep_rows_shape.1 1 1 (fun _ _ => 0)).2.1 0 (by decide),
   (sweep_rows_shape.1 1 1 (fun _ _ => 0)).2.2 _ (List.get_mem _ 0 (by decide))⟩

theorem fold_min_fun_eq :
    (fun (m x : ℤ) => if x < m then x else m) = (fun (m x : ℤ) => min m x) := by
  funext m x
  rcases lt_or_le x m with h | h
  · rw [if_pos h, min_eq_right (le_of_lt h)]
  · rw [if_neg (not_lt.mpr h), min_eq_left h]

theorem fold_max_fun_eq :
    (fun (m x : ℤ) => if m < x then x else m) = (fun (m x : ℤ) => max m x) := by
  funext m x
  rcases lt_or_le m x with h | h
  · rw [if_pos h, max_eq_right (le_of_lt h)]
  · rw [if_neg (not_lt.mpr h), max_eq_left h]

theorem statMin_perm (mT : ℤ) {b1 b2 : List ℤ} (hp : b1.Perm b2) :
    statMin mT b1 = statMin mT b2 := by
  rw [statMin, statMin, fold_min_fun_eq]
  exact hp.foldl_eq' (fun x _ y _ z => by rw [min_right_comm]) (mT + 1)

theorem statMax_perm {b1 b2 : List ℤ} (hp : b1.Perm b2) :
    statMax b1 = statMax b2 := by
  rw [statMax, statMax, fold_max_fun_eq]
  exact hp.foldl_eq'
    (fun x _ y _ z => by rw [max_assoc, max_assoc, max_comm x y]) 0

theorem statSum_perm {b1 b2 : List ℤ} (hp : b1.Perm b2) :
    statSum b1 = statSum b2 := by
  rw [statSum_eq, statSum_eq]
  exact (hp.map (fun x : ℤ => (x : ℚ))).sum_eq

theorem statSqDev_perm (avg : ℚ) {b1 b2 : List ℤ} (hp : b1.Perm b2) :
    statSqDev avg b1 = statSqDev avg b2 := by
  rw [statSqDev_eq, statSqDev_eq]
  exact (hp.map (fun x : ℤ => ((x : ℚ) - avg) ^ 2)).sum_eq

/-- C8: summarizing any permutation of a batch with the same expected
value yields an identical StatsSummary, and in particular the same
standard deviation. -/
theorem summarize_perm_invariant :
    ∀ (maxThreads : ℤ) (tc : ℕ) (b1 b2 : List ℤ) (e : ℤ), b1.Perm b2 →
      summarize maxThreads tc b1 e = summarize maxThreads tc b2 e ∧
      Real.sqrt (((summarize maxThreads tc b1 e).variance : ℚ) : ℝ) =
        Real.sqrt (((summarize maxThreads tc b2 e).variance : ℚ) : ℝ) := by
  intro mT tc b1 b2 e hp
  have hlen := hp.length_eq
  have hcount := hp.countP_eq (fun x => decide (x = e))
  have hmin := statMin_perm mT hp
  have hmax := statMax_perm hp
  have hsum := statSum_perm hp
  have hsq := statSqDev_perm (statSum b2 / ((b2.length : ℕ) : ℚ)) hp
  have heq : summarize mT tc b1 e = summarize mT tc b2 e := by
    simp only [summarize]
    rw [hlen, hcount, hmin, hmax, hsum, hsq]
  exact ⟨heq, by rw [heq]⟩

theorem summarize_perm_invariant_witness :
    summarize 10 2 [1, 2] 0 = summarize 10 2 [2, 1] 0 :=
  (summarize_perm_invariant 10 2 [1, 2] [2, 1] 0 (List.Perm.swap 2 1 [])).1

/-- True minimum of a non-empty batch (head-seeded fold, 0 for []). -/
def trueMin : List ℤ → ℤ
  | [] => 0
  | a :: l => l.foldl min a

/-- True maximum of a non-empty batch (head-seeded fold, 0 for []). -/
def trueMax : List ℤ → ℤ
  | [] => 0
  | a :: l => l.foldl max a

theorem foldl_min_le_init : ∀ (l : List ℤ) (a : ℤ), l.foldl min a ≤ a := by
  intro l
  induction l with
  | nil => intro a; exact le_refl a
  | cons x l ih => intro a; exact le_trans (ih (min a x)) (min_le_left a x)

theorem foldl_min_le_mem : ∀ (l : List ℤ) (a x : ℤ), x ∈ l → l.foldl min a ≤ x := by
  intro l
  induction l with
  | nil => intro a x hx; cases hx
  | cons y l ih =>
    intro a x hx
    rcases List.mem_cons.mp hx with h | h
    · subst h
      exact le_trans (foldl_min_le_init l (min a x)) (min_le_right a x)
    · exact ih (min a y) x h

theorem foldl_min_mem : ∀ (l : List ℤ) (a : ℤ), l.foldl min a = a ∨ l.foldl min a ∈ l := by
  intro l
  induction l with
  | nil => intro a; exact Or.inl rfl
  | cons x l ih =>
    intro a
    rcases ih (min a x) with h | h
    · rcases min_choice a x with hm | hm
      · exact Or.inl (by rw [List.foldl_cons, h, hm])
      · exact Or.inr (by rw [List.foldl_cons, h, hm]; exact List.mem_cons_self x l)
    · exact Or.inr (List.mem_cons_of_mem x h)

theorem foldl_min_init_out : ∀ (l : List ℤ) (a c : ℤ),
    l.foldl min (min c a) = min c (l.foldl min a) := by
  intro l
  induction l with
  | nil => intro a c; rfl
  | cons x l ih =>
    intro a c
    rw [List.foldl_cons, List.foldl_cons, min_assoc, ih]

theorem foldl_max_ge_init : ∀ (l : List ℤ) (a : ℤ), a ≤ l.foldl max a := by
  intro l
  induction l with
  | nil => intro a; exact le_refl a
  | cons x l ih => intro a; exact le_trans (le_max_left a x) (ih (max a x))

theorem foldl_max_ge_mem : ∀ (l : List ℤ) (a x : ℤ), x ∈ l → x ≤ l.foldl max a := by
  intro l
  induction l with
  | nil => intro a x hx; cases hx
  | cons y l ih =>
    intro a x hx
    rcases List.mem_cons.mp hx with h | h
    · subst h
      exact le_trans (le_max_right a x) (foldl_max_ge_init l (max a x))
    · exact ih (max a y) x h

theorem foldl_max_mem : ∀ (l : List ℤ) (a : ℤ), l.foldl max a = a ∨ l.foldl max a ∈ l := by
  intro l
  induction l with
  | nil => intro a; exact Or.inl rfl
  | cons x l ih =>
    intro a
    rcases ih (max a x) with h | h
    · rcases max_choice a x with hm | hm
      · exact Or.inl (by rw [List.foldl_cons, h, hm])
      · exact Or.inr (by rw [List.foldl_cons, h, hm]; exact List.mem_cons_self x l)
    · exact Or.inr (List.mem_cons_of_mem x h)

theorem foldl_max_init_out : ∀ (l : List ℤ) (a c : ℤ),
    l.foldl max (max c a) = max c (l.foldl max a) := by
  intro l
  induction l with
  | nil => intro a c; rfl
  | cons x l ih =>
    intro a c
    rw [List.foldl_cons, List.foldl_cons, max_assoc, ih]

theorem statMin_eq_min_sentinel (mT : ℤ) (b : List ℤ) (hb : b ≠ []) :
    statMin mT b = min (mT + 1) (trueMin b) := by
  cases b with
  | nil => exact absurd rfl hb
  | cons a l =>
    rw [statMin, fold_min_fun_eq, List.foldl_cons, foldl_min_init_out]
    rfl

theorem statMax_eq_max_sentinel (b : List ℤ) (hb : b ≠ []) :
    statMax b = max 0 (trueMax b) := by
  cases b with
  | nil => exact absurd rfl hb
  | cons a l =>
    rw [statMax, fold_max_fun_eq, List.foldl_cons, foldl_max_init_out]
    rfl

theorem trueMin_mem (b : List ℤ) (hb : b ≠ []) : trueMin b ∈ b := by
  cases b with
  | nil => exact absurd rfl hb
  | cons a l =>
    show l.foldl min a ∈ a :: l
    rcases foldl_min_mem l a with h | h
    · rw [h]; exact List.mem_cons_self a l
    · exact List.mem_cons_of_mem a h

theorem trueMin_le (b : List ℤ) (x : ℤ) (hx : x ∈ b) : trueMin b ≤ x := by
  cases b with
  | nil => cases hx
  | cons a l =>
    show l.foldl min a ≤ x
    rcases List.mem_cons.mp hx with h | h
    · subst h; exact foldl_min_le_init l x
    · exact foldl_min_le_mem l a x h

theorem trueMax_mem (b : List ℤ) (hb : b ≠ []) : trueMax b ∈ b := by
  cases b with
  | nil => exact absurd rfl hb
  | cons a l =>
    show l.foldl max a ∈ a :: l
    rcases foldl_max_mem l a with h | h
    · rw [h]; exact List.mem_cons_self a l
    · exact List.mem_cons_of_mem a h

theorem trueMax_ge (b : List ℤ) (x : ℤ) (hx : x ∈ b) : x ≤ trueMax b := by
  cases b with
  | nil => cases hx
  | cons a l =>
    show x ≤ l.foldl max a
    rcases List.mem_cons.mp hx with h | h
    · subst h; exact foldl_max_ge_init l x
    · exact foldl_max_ge_mem l a x h

/-- C9 counterexample: with the program's max_threads = 10 and the
batch [11], the reported min equals the true batch minimum although no
batch value is at most max_threads, and although every value exceeds
max_threads the reported min max_threads + 1 is itself a batch
element. -/
theorem min_sentinel_counterexample :
    statMin 10 [11] = trueMin [11] ∧
    (∀ x ∈ ([11] : List ℤ), ¬ x ≤ 10) ∧
    (∀ x ∈ ([11] : List ℤ), 10 < x) ∧
    statMin 10 [11] = 10 + 1 ∧
    ((10 + 1 : ℤ) ∈ ([11] : List ℤ)) := by
  decide

/-- C9 amended: for every non-empty batch, the reported min equals the
true batch minimum exactly when the batch contains a value at most
max_threads + 1, and the reported max equals the true batch maximum
exactly when the batch contains a value at least 0; when every value
exceeds max_threads the reported min is the sentinel max_threads + 1
(which coincides with a batch element exactly when some value equals
max_threads + 1). -/
theorem min_max_sentinel_amended (mT : ℤ) (b : List ℤ) (hb : b ≠ []) :
    (statMin mT b = trueMin b ↔ ∃ x ∈ b, x ≤ mT + 1) ∧
    (statMax b = trueMax b ↔ ∃ x ∈ b, 0 ≤ x) ∧
    ((∀ x ∈ b, mT < x) → statMin mT b = mT + 1) := by
  have hmin := statMin_eq_min_sentinel mT b hb
  have hmax := statMax_eq_max_sentinel b hb
  refine ⟨⟨?_, ?_⟩, ⟨?_, ?_⟩, ?_⟩
  · intro h
    refine ⟨trueMin b, trueMin_mem b hb, ?_⟩
    rw [← h, hmin]
    exact min_le_left _ _
  · rintro ⟨x, hxb, hxle⟩
    rw [hmin]
    exact min_eq_right (le_trans (trueMin_le b x hxb) hxle)
  · intro h
    refine ⟨trueMax b, trueMax_mem b hb, ?_⟩
    rw [← h, hmax]
    exact le_max_left _ _
  · rintro ⟨x, hxb, hxle⟩
    rw [hmax]
    exact max_eq_right (le_trans hxle (trueMax_ge b x hxb))
  · intro hall
    rw [hmin]
    have h1 : mT + 1 ≤ trueMin b := by
      have := hall (trueMin b) (trueMin_mem b hb)
      omega
    exact min_eq_left h1

theorem min_max_sentinel_amended_witness :
    (statMin 10 [2] = trueMin [2] ↔ ∃ x ∈ ([2] : List ℤ), x ≤ 10 + 1) ∧
    (statMax [2] = trueMax [2] ↔ ∃ x ∈ ([2] : List ℤ), 0 ≤ x) ∧
    ((∀ x ∈ ([2] : List ℤ), 10 < x) → statMin 10 [2] = 10 + 1) :=
  min_max_sentinel_amended 10 [2] (by decide)

/-- Model of complex_mode's effect on the global thread_count together
with the rows it prints.  The function saves the entry value of
thread_count, the for loop sets thread_count to t = 1, 2, ..., M while
appending one summary row per t, and after the loop thread_count is
assigned the saved value back, which is the second component of the
result (the value a subsequent simple_mode run would use). -/
def complex_mode_model (M K : ℕ) (oracle : ℕ → ℕ → ℤ) (tc0 : ℕ) :
    List StatsSummary × ℕ :=
  let original_thread_count := tc0
  let loop := (List.range M).foldl
    (fun (acc : List StatsSummary × ℕ) (j : ℕ) =>
      (acc.1 ++ [summarize (M : ℤ) (j + 1) ((List.range K).map (oracle (j + 1)))
        ((j + 1 : ℕ) : ℤ)], j + 1))
    ([], 1)
  (loop.1, original_thread_count)

theorem foldl_snoc_rows (M K : ℕ) (oracle : ℕ → ℕ → ℤ) :
    ∀ (l : List ℕ) (acc : List StatsSummary × ℕ),
      (l.foldl (fun (acc : List StatsSummary × ℕ) (j : ℕ) =>
        (acc.1 ++ [summarize (M : ℤ) (j + 1) ((List.range K).map (oracle (j + 1)))
          ((j + 1 : ℕ) : ℤ)], j + 1)) acc).1 =
      acc.1 ++ l.map (fun j => summarize (M : ℤ) (j + 1)
        ((List.range K).map (oracle (j + 1))) ((j + 1 : ℕ) : ℤ)) := by
  intro l
  induction l with
  | nil => intro acc; simp
  | cons j l ih =>
    intro acc
    rw [List.foldl_cons, ih, List.map_cons]
    simp

/-- C10: complex_mode leaves the global thread_count at its entry
value: it saves the value, mutates thread_count through 1..M during the
sweep, and restores the saved value before returning, so a subsequent
simple_mode run uses the originally configured thread count; moreover
the rows it prints are exactly the sweep rows. -/
theorem complex_mode_restores_thread_count (M K : ℕ) (oracle : ℕ → ℕ → ℤ)
    (tc0 : ℕ) :
    (complex_mode_model M K oracle tc0).2 = tc0 ∧
    (complex_mode_model M K oracle tc0).1 = complexRows M K oracle := by
  constructor
  · rfl
  · show ((List.range M).foldl
      (fun (acc : List StatsSummary × ℕ) (j : ℕ) =>
        (acc.1 ++ [summarize (M : ℤ) (j + 1) ((List.range K).map (oracle (j + 1)))
          ((j + 1 : ℕ) : ℤ)], j + 1)) ([], 1)).1 = complexRows M K oracle
    rw [foldl_snoc_rows M K oracle (List.range M) ([], 1)]
    simp [complexRows]
